import Mathlib

/-!
Verification of the close-near-low backtesting script
(`close_near_low_new.py`).

The script classifies each daily OHLC bar by whether its close sits in the
bottom `PCT_THRESH`% of the day's high-low range, runs a single-position
state machine over all bars except the last, force-liquidates any open
position at the last bar's close, and projects the trade log onto the bar
date axis as an equity curve.

Prices are modelled as rationals, dates as naturals (only their ordering
and equality matter).  The embedding follows the source line by line:
the signal (lines 42-44), the per-bar loop (lines 53-92), the forced final
exit (lines 95-117), and the equity-curve loop (lines 127-137).
-/

namespace CloseNearLow

/-- One daily OHLC bar (a row of the downloaded dataframe). -/
structure Bar where
  date : ℕ
  openP : ℚ
  high : ℚ
  low : ℚ
  close : ℚ
deriving DecidableEq, Repr

/-- Lines 42-44: `data["signal"] = (data["Close"] - data["Low"]) <=
(PCT_THRESH / 100) * (data["High"] - data["Low"])`.  `pct` is the percent
threshold (the source's `PCT_THRESH`, default 10). -/
def signal (pct : ℚ) (b : Bar) : Bool :=
  decide (b.close - b.low ≤ pct / 100 * (b.high - b.low))

/-- One completed trade, as appended to `trades` (lines 73-82, 100-109). -/
structure Trade where
  entry_date : ℕ
  exit_date : ℕ
  entry_price : ℚ
  exit_price : ℚ
  return_factor : ℚ
  balance_after_trade : ℚ
deriving DecidableEq, Repr

/-- The mutable state of the backtest loop (lines 47-51): running balance,
the open position (`in_trade` / `entry_price` / `entry_date`, merged into
one `Option` holding entry price and entry date), and the trade log. -/
structure BTState where
  balance : ℚ
  pos : Option (ℚ × ℕ)
  trades : List Trade
deriving DecidableEq, Repr

/-- The body of the loop at lines 53-92, for one bar `b` (`today`).
When flat, enter on a signal; when in a trade, exit at today's close once
the signal is gone, multiplying the balance by `exit/entry`. -/
def stepBar (pct : ℚ) (st : BTState) (b : Bar) : BTState :=
  match st.pos with
  | none =>
      if signal pct b then { st with pos := some (b.close, b.date) } else st
  | some (entryPrice, entryDate) =>
      if signal pct b then st
      else
        let exitPrice := b.close
        let r := exitPrice / entryPrice
        let newBal := st.balance * r
        { balance := newBal
          pos := none
          trades := st.trades ++
            [{ entry_date := entryDate, exit_date := b.date,
               entry_price := entryPrice, exit_price := exitPrice,
               return_factor := r, balance_after_trade := newBal }] }

/-- Lines 95-117: if a trade is still open after the loop, exit at the
final bar's close and date. -/
def forcedExit (st : BTState) (lastBar : Bar) : BTState :=
  match st.pos with
  | none => st
  | some (entryPrice, entryDate) =>
      let exitPrice := lastBar.close
      let r := exitPrice / entryPrice
      let newBal := st.balance * r
      { balance := newBal
        pos := none
        trades := st.trades ++
          [{ entry_date := entryDate, exit_date := lastBar.date,
             entry_price := entryPrice, exit_price := exitPrice,
             return_factor := r, balance_after_trade := newBal }] }

/-- `for i in range(len(data) - 1)` (line 53): fold the loop body over the
given bars (the caller passes all bars but the last). -/
def runLoop (pct : ℚ) (st : BTState) (bars : List Bar) : BTState :=
  bars.foldl (stepBar pct) st

/-- The whole simulation (lines 47-117): run the loop over all bars except
the last, then force-exit against the last bar if still in a trade. -/
def backtestState (pct startBal : ℚ) (bars : List Bar) : BTState :=
  let st := runLoop pct { balance := startBal, pos := none, trades := [] } bars.dropLast
  match bars.getLast? with
  | none => st
  | some lastBar => forcedExit st lastBar

/-- The equity-curve loop (lines 127-137): one point per bar date, walked
with a pointer into the trade list; when the next trade's exit date equals
the current date the running balance becomes that trade's
`balance_after_trade`. -/
def equityLoop : List ℕ → List Trade → ℚ → List (ℕ × ℚ)
  | [], _, _ => []
  | d :: ds, [], bal => (d, bal) :: equityLoop ds [] bal
  | d :: ds, t :: rest, bal =>
      if t.exit_date = d then
        (d, t.balance_after_trade) :: equityLoop ds rest t.balance_after_trade
      else
        (d, bal) :: equityLoop ds (t :: rest) bal

/-- Everything the script reports: final balance (line 120), trade history
(lines 121-123) and the equity curve (lines 127-137). -/
structure Report where
  final_balance : ℚ
  trades : List Trade
  equity : List (ℕ × ℚ)
deriving DecidableEq, Repr

/-- The full run on a bar sequence. -/
def runBacktest (pct startBal : ℚ) (bars : List Bar) : Report :=
  let st := backtestState pct startBal bars
  { final_balance := st.balance
    trades := st.trades
    equity := equityLoop (bars.map Bar.date) st.trades startBal }

/-- The script's only raise (lines 36-38) fires when the dataframe lacks an
OHLC column.  A `Bar` record always carries all four fields, so the check
always passes and the run always returns a complete report; in particular
no length check of any kind precedes the simulation. -/
def backtestChecked (pct startBal : ℚ) (bars : List Bar) : Except String Report :=
  Except.ok (runBacktest pct startBal bars)

/-! ### C1: the three-bar scenario -/

/-- C1 counterexample.  Bars `(d1, 10, 11, 9, 9.5)`, `(d2, 10, 11, 9, 10.8)`,
`(d3, 10, 12, 9, 9.2)` with threshold 10% and starting balance 1000.  The
claim says exactly one forced-exit trade is emitted; in fact the loop only
inspects bars d1 and d2 (both signal-false), the last bar's signal is never
used for entry, and the trade list is empty. -/
theorem C1_counterexample :
    (runBacktest 10 1000
      [⟨1, 10, 11, 9, 19/2⟩, ⟨2, 10, 11, 9, 54/5⟩, ⟨3, 10, 12, 9, 46/5⟩]).trades
      = [] := by
  norm_num [runBacktest, backtestState, runLoop, stepBar, signal, forcedExit,
    equityLoop, List.foldl, List.dropLast, List.getLast?]

/-- C1 amended: on that input the backtest emits **no** trade at all (the
last bar is excluded from the entry loop, so its lone true signal is never
acted on), the final balance is unchanged at 1000, and the equity curve is
flat at 1000. -/
theorem C1_amended_run :
    runBacktest 10 1000
      [⟨1, 10, 11, 9, 19/2⟩, ⟨2, 10, 11, 9, 54/5⟩, ⟨3, 10, 12, 9, 46/5⟩]
      = { final_balance := 1000, trades := [],
          equity := [(1, 1000), (2, 1000), (3, 1000)] } := by
  norm_num [runBacktest, backtestState, runLoop, stepBar, signal, forcedExit,
    equityLoop, List.foldl, List.dropLast, List.getLast?]

/-! ### C3: the signal formula -/

/-- C3: for every bar the classifier is true iff
`close - low ≤ (pct/100) · (high - low)` (the threshold fraction is
`pct/100`); and with threshold 0, provided `low ≤ close`, the signal holds
exactly when `close = low`. -/
theorem C3_signal_iff (pct : ℚ) (b : Bar) :
    (signal pct b = true ↔ b.close - b.low ≤ pct / 100 * (b.high - b.low)) ∧
    (b.low ≤ b.close → (signal 0 b = true ↔ b.close = b.low)) := by
  refine ⟨by simp [signal], fun hlc => ?_⟩
  simp only [signal, decide_eq_true_eq]
  constructor
  · intro h
    have h0 : b.close - b.low ≤ 0 := by
      have : (0 : ℚ) / 100 * (b.high - b.low) = 0 := by ring
      linarith [this ▸ h]
    linarith
  · intro h
    rw [h]
    ring_nf
    positivity

/-- Witness for C3 at the bar `(1, 10, 11, 9, 9)` (a zero-threshold signal
day with `close = low`). -/
theorem C3_signal_iff_witness :
    (signal 10 ⟨1, 10, 11, 9, 9⟩ = true ↔
      (9 : ℚ) - 9 ≤ 10 / 100 * (11 - 9)) ∧
    (signal 0 ⟨1, 10, 11, 9, 9⟩ = true ↔ (9 : ℚ) = 9) :=
  ⟨(C3_signal_iff 10 ⟨1, 10, 11, 9, 9⟩).1,
   (C3_signal_iff 0 ⟨1, 10, 11, 9, 9⟩).2 (by norm_num)⟩

/-! ### C7: short bar sequences -/

/-- C7 counterexample.  The claim says a sequence of fewer than 2 bars
fails with `EmptyBarSequenceError` before any simulation.  The source has
no such error: with one bar the loop range `range(0)` is empty, the forced
exit does not fire, and a complete report (balance 1000, no trades, a
one-point equity curve) is returned. -/
theorem C7_counterexample :
    backtestChecked 10 1000 [⟨1, 10, 11, 9, 19/2⟩]
      = Except.ok { final_balance := 1000, trades := [],
                    equity := [(1, 1000)] } := by
  norm_num [backtestChecked, runBacktest, backtestState, runLoop, stepBar,
    signal, forcedExit, equityLoop, List.foldl, List.dropLast, List.getLast?]

/-- C7 amended: with fewer than 2 bars the backtest raises no error; it
runs to completion, emits no trade, reports final balance equal to the
starting balance, and an equity curve constant at the starting balance. -/
theorem C7_amended_short_input (pct startBal : ℚ) (bars : List Bar)
    (h : bars.length < 2) :
    backtestChecked pct startBal bars
      = Except.ok { final_balance := startBal, trades := [],
                    equity := bars.map (fun b => (b.date, startBal)) } := by
  match bars, h with
  | [], _ => rfl
  | [b], _ => rfl

/-- Witness for C7 (amended) at a concrete one-bar input. -/
theorem C7_amended_short_input_witness :
    backtestChecked 10 1000 [⟨5, 10, 11, 9, 10⟩]
      = Except.ok { final_balance := 1000, trades := [],
                    equity := [(5, 1000)] } :=
  C7_amended_short_input 10 1000 [⟨5, 10, 11, 9, 10⟩] (by norm_num)

/-! ### C8: bars with `high < low` -/

/-- C8 counterexample.  The claim says the classifier fails with
`InvalidBarError` when `high < low`.  The source just evaluates the
inequality: on `(1, 10, 5, 9, 9)` (high 5 < low 9) it quietly returns
`false`, and on `(1, 10, 5, 9, 8)` (close below low) it even returns
`true`.  No error path exists. -/
theorem C8_counterexample :
    signal 10 ⟨1, 10, 5, 9, 9⟩ = false ∧ signal 10 ⟨1, 10, 5, 9, 8⟩ = true := by
  constructor <;> norm_num [signal]

/-- C8 amended: on a bar with `high < low` the classifier raises nothing
and simply evaluates the same inequality `close - low ≤ (pct/100)·(high - low)`
over the (negative) range. -/
theorem C8_amended_no_error (pct : ℚ) (b : Bar) (_hinv : b.high < b.low) :
    signal pct b = true ↔ b.close - b.low ≤ pct / 100 * (b.high - b.low) := by
  simp [signal]

/-- Witness for C8 (amended) at the inverted bar `(1, 10, 5, 9, 8)`. -/
theorem C8_amended_no_error_witness :
    signal 10 ⟨1, 10, 5, 9, 8⟩ = true ↔
      (8 : ℚ) - 9 ≤ 10 / 100 * (5 - 9) :=
  C8_amended_no_error 10 ⟨1, 10, 5, 9, 8⟩ (by norm_num)

/-! ### C2: the balance is the product of the return factors -/

/-- Product of the return factors of a list of trades. -/
def prodRF (trades : List Trade) : ℚ :=
  (trades.map Trade.return_factor).prod

/-- Each trade's recorded balance equals the starting balance times the
product of the return factors of all trades up to and including it. -/
def cumBalancesOk (startBal : ℚ) (trades : List Trade) : Prop :=
  ∀ k, (hk : k < trades.length) →
    trades[k].balance_after_trade = startBal * prodRF (trades.take (k + 1))

/-- The balance bookkeeping invariant maintained by the loop. -/
def balInv (startBal : ℚ) (st : BTState) : Prop :=
  st.balance = startBal * prodRF st.trades ∧ cumBalancesOk startBal st.trades

lemma prodRF_append (l₁ l₂ : List Trade) :
    prodRF (l₁ ++ l₂) = prodRF l₁ * prodRF l₂ := by
  simp [prodRF]

lemma prodRF_singleton (t : Trade) : prodRF [t] = t.return_factor := by
  simp [prodRF]

lemma cumBalancesOk_concat (startBal : ℚ) (l : List Trade) (t : Trade)
    (h : cumBalancesOk startBal l)
    (ht : t.balance_after_trade = startBal * prodRF (l ++ [t])) :
    cumBalancesOk startBal (l ++ [t]) := by
  intro k hk
  rcases Nat.lt_or_ge k l.length with hlt | hge
  · have h1 : (l ++ [t])[k] = l[k] := List.getElem_append_left hlt
    have h2 : (l ++ [t]).take (k + 1) = l.take (k + 1) :=
      List.take_append_of_le_length (by omega)
    rw [h1, h2]
    exact h k hlt
  · have hk' : k = l.length := by
      have := hk
      simp only [List.length_append, List.length_singleton] at this
      omega
    subst hk'
    have h1 : (l ++ [t])[l.length] = t := by
      rw [List.getElem_append_right (le_refl l.length)]
      simp
    have h2 : (l ++ [t]).take (l.length + 1) = l ++ [t] := by
      apply List.take_of_length_le
      simp
    rw [h1, h2]
    exact ht

lemma balInv_stepBar (pct startBal : ℚ) (st : BTState) (b : Bar)
    (h : balInv startBal st) : balInv startBal (stepBar pct st b) := by
  obtain ⟨bal, pos, trades⟩ := st
  obtain ⟨hbal, hcum⟩ := h
  simp only [balInv] at hbal hcum ⊢
  rcases pos with _ | ⟨entryPrice, entryDate⟩
  · simp only [stepBar]
    split <;> exact ⟨hbal, hcum⟩
  · simp only [stepBar]
    split
    · exact ⟨hbal, hcum⟩
    · constructor
      · simp only [prodRF_append, prodRF_singleton]
        rw [hbal, prodRF]
        ring
      · apply cumBalancesOk_concat startBal trades _ hcum
        simp only [prodRF_append, prodRF_singleton]
        rw [hbal, prodRF]
        ring

lemma balInv_forcedExit (startBal : ℚ) (st : BTState) (lb : Bar)
    (h : balInv startBal st) : balInv startBal (forcedExit st lb) := by
  obtain ⟨bal, pos, trades⟩ := st
  obtain ⟨hbal, hcum⟩ := h
  simp only [balInv] at hbal hcum ⊢
  rcases pos with _ | ⟨entryPrice, entryDate⟩
  · exact ⟨hbal, hcum⟩
  · simp only [forcedExit]
    constructor
    · simp only [prodRF_append, prodRF_singleton]
      rw [hbal, prodRF]
      ring
    · apply cumBalancesOk_concat startBal trades _ hcum
      simp only [prodRF_append, prodRF_singleton]
      rw [hbal, prodRF]
      ring

lemma balInv_runLoop (pct startBal : ℚ) (bars : List Bar) (st : BTState)
    (h : balInv startBal st) : balInv startBal (runLoop pct st bars) := by
  induction bars generalizing st with
  | nil => exact h
  | cons b bs ih =>
      simp only [runLoop, List.foldl_cons] at *
      exact ih _ (balInv_stepBar pct startBal st b h)

lemma balInv_backtestState (pct startBal : ℚ) (bars : List Bar) :
    balInv startBal (backtestState pct startBal bars) := by
  have hinit : balInv startBal { balance := startBal, pos := none, trades := [] } := by
    constructor
    · simp [prodRF]
    · intro k hk
      simp at hk
  have hloop := balInv_runLoop pct startBal bars.dropLast _ hinit
  simp only [backtestState]
  rcases bars.getLast? with _ | lb
  · exact hloop
  · exact balInv_forcedExit startBal _ lb hloop

/-- C2: for every bar sequence of length ≥ 2 and every starting balance,
the final balance equals the starting balance times the product of the
return factors of all emitted trades, and each trade's
`balance_after_trade` equals the starting balance times the product of the
return factors of the trades up to and including it. -/
theorem C2_balance_is_product (pct startBal : ℚ) (bars : List Bar)
    (_hlen : 2 ≤ bars.length) :
    (runBacktest pct startBal bars).final_balance
        = startBal *
          (((runBacktest pct startBal bars).trades.map Trade.return_factor).prod) ∧
    cumBalancesOk startBal (runBacktest pct startBal bars).trades := by
  have h := balInv_backtestState pct startBal bars
  exact ⟨h.1, h.2⟩

/-- Witness for C2: three bars with an entry on day 1 (close = low) and a
signal-driven exit on day 2 at close 10, so one trade with return factor
10/9. -/
theorem C2_balance_is_product_witness :
    (runBacktest 10 1000
        [⟨1, 10, 11, 9, 9⟩, ⟨2, 10, 11, 9, 10⟩, ⟨3, 10, 12, 9, 11⟩]).final_balance
      = 1000 *
        (((runBacktest 10 1000
          [⟨1, 10, 11, 9, 9⟩, ⟨2, 10, 11, 9, 10⟩, ⟨3, 10, 12, 9, 11⟩]).trades.map
            Trade.return_factor).prod) ∧
    cumBalancesOk 1000
      (runBacktest 10 1000
        [⟨1, 10, 11, 9, 9⟩, ⟨2, 10, 11, 9, 10⟩, ⟨3, 10, 12, 9, 11⟩]).trades :=
  C2_balance_is_product 10 1000
    [⟨1, 10, 11, 9, 9⟩, ⟨2, 10, 11, 9, 10⟩, ⟨3, 10, 12, 9, 11⟩] (by norm_num)

/-! ### C5 / C6 / C9: chronology of the trade log -/

/-- Every date recorded in the state (trade exit dates and the open
position's entry date) is strictly below `d`. -/
def stateDatesLt (st : BTState) (d : ℕ) : Prop :=
  (∀ t ∈ st.trades, t.exit_date < d) ∧
  (∀ p : ℚ × ℕ, st.pos = some p → p.2 < d)

/-- Chronology invariant of the loop state, relative to the bar date axis:
all trade dates lie on the axis, each trade exits strictly after it
enters, trades are pairwise disjoint in time, and an open position was
entered on the axis, after every completed trade's exit. -/
def stInv (axis : List ℕ) (st : BTState) : Prop :=
  (∀ t ∈ st.trades,
      t.entry_date ∈ axis ∧ t.exit_date ∈ axis ∧ t.entry_date < t.exit_date) ∧
  st.trades.Pairwise (fun a b => a.exit_date < b.entry_date) ∧
  (∀ p : ℚ × ℕ, st.pos = some p →
      p.2 ∈ axis ∧ ∀ t ∈ st.trades, t.exit_date < p.2)

lemma stateDatesLt_mono (st : BTState) (d d' : ℕ)
    (h : stateDatesLt st d) (hdd : d ≤ d') : stateDatesLt st d' := by
  obtain ⟨h1, h2⟩ := h
  exact ⟨fun t ht => lt_of_lt_of_le (h1 t ht) hdd,
         fun p hp => lt_of_lt_of_le (h2 p hp) hdd⟩

lemma stInv_stepBar (pct : ℚ) (axis : List ℕ) (st : BTState) (b : Bar)
    (hinv : stInv axis st) (hlt : stateDatesLt st b.date) (hmem : b.date ∈ axis) :
    stInv axis (stepBar pct st b) ∧
    ∀ d, b.date < d → stateDatesLt (stepBar pct st b) d := by
  obtain ⟨bal, pos, trades⟩ := st
  obtain ⟨htr, hpw, hpos⟩ := hinv
  obtain ⟨hltTr, hltPos⟩ := hlt
  rcases pos with _ | ⟨entryPrice, entryDate⟩
  · simp only [stepBar]
    split
    · refine ⟨⟨htr, hpw, ?_⟩, ?_⟩
      · rintro ⟨p1, p2⟩ hp
        simp only [Option.some_inj, Prod.mk.injEq] at hp
        refine ⟨?_, ?_⟩
        · rw [← hp.2]
          exact hmem
        · intro t ht
          rw [← hp.2]
          exact hltTr t ht
      · intro d hd
        refine ⟨fun t ht => lt_trans (hltTr t ht) hd, ?_⟩
        rintro ⟨p1, p2⟩ hp
        simp only [Option.some_inj, Prod.mk.injEq] at hp
        rw [← hp.2]
        exact hd
    · exact ⟨⟨htr, hpw, hpos⟩,
        fun d hd => stateDatesLt_mono _ _ _ ⟨hltTr, hltPos⟩ (le_of_lt hd)⟩
  · simp only [stepBar]
    split
    · exact ⟨⟨htr, hpw, hpos⟩,
        fun d hd => stateDatesLt_mono _ _ _ ⟨hltTr, hltPos⟩ (le_of_lt hd)⟩
    · have hentry := hpos (entryPrice, entryDate) rfl
      have hentryLt : entryDate < b.date := hltPos (entryPrice, entryDate) rfl
      refine ⟨⟨?_, ?_, ?_⟩, ?_⟩
      · intro t ht
        rcases List.mem_append.mp ht with hold | hnew
        · exact htr t hold
        · rw [List.mem_singleton.mp hnew]
          exact ⟨hentry.1, hmem, hentryLt⟩
      · rw [List.pairwise_append]
        refine ⟨hpw, List.pairwise_singleton _ _, ?_⟩
        intro a ha b' hb'
        rw [List.mem_singleton.mp hb']
        exact hentry.2 a ha
      · rintro p hp
        simp at hp
      · intro d hd
        refine ⟨?_, ?_⟩
        · intro t ht
          rcases List.mem_append.mp ht with hold | hnew
          · exact lt_trans (hltTr t hold) hd
          · rw [List.mem_singleton.mp hnew]
            exact hd
        · rintro p hp
          simp at hp

lemma stInv_forcedExit (axis : List ℕ) (st : BTState) (lb : Bar)
    (hinv : stInv axis st) (hlt : stateDatesLt st lb.date) (hmem : lb.date ∈ axis) :
    stInv axis (forcedExit st lb) := by
  obtain ⟨bal, pos, trades⟩ := st
  obtain ⟨htr, hpw, hpos⟩ := hinv
  obtain ⟨hltTr, hltPos⟩ := hlt
  rcases pos with _ | ⟨entryPrice, entryDate⟩
  · exact ⟨htr, hpw, hpos⟩
  · have hentry := hpos (entryPrice, entryDate) rfl
    have hentryLt : entryDate < lb.date := hltPos (entryPrice, entryDate) rfl
    simp only [forcedExit]
    refine ⟨?_, ?_, ?_⟩
    · intro t ht
      rcases List.mem_append.mp ht with hold | hnew
      · exact htr t hold
      · rw [List.mem_singleton.mp hnew]
        exact ⟨hentry.1, hmem, hentryLt⟩
    · rw [List.pairwise_append]
      refine ⟨hpw, List.pairwise_singleton _ _, ?_⟩
      intro a ha b' hb'
      rw [List.mem_singleton.mp hb']
      exact hentry.2 a ha
    · rintro p hp
      simp at hp

lemma stInv_runLoop (pct : ℚ) (axis : List ℕ) (bars : List Bar) (st : BTState)
    (hsort : (bars.map Bar.date).Pairwise (· < ·))
    (haxis : ∀ b ∈ bars, b.date ∈ axis)
    (hbound : ∀ b ∈ bars, stateDatesLt st b.date)
    (hinv : stInv axis st) :
    stInv axis (runLoop pct st bars) ∧
    ∀ d, (∀ b ∈ bars, b.date < d) → stateDatesLt st d →
      stateDatesLt (runLoop pct st bars) d := by
  induction bars generalizing st with
  | nil => exact ⟨hinv, fun d _ h => h⟩
  | cons b bs ih =>
      simp only [List.map_cons, List.pairwise_cons] at hsort
      have hstep := stInv_stepBar pct axis st b hinv (hbound b (List.mem_cons_self b bs))
        (haxis b (List.mem_cons_self b bs))
      have hbs : ∀ b' ∈ bs, stateDatesLt (stepBar pct st b) b'.date := by
        intro b' hb'
        exact hstep.2 b'.date (hsort.1 b'.date (List.mem_map_of_mem Bar.date hb'))
      have hrec := ih (stepBar pct st b) hsort.2
        (fun b' hb' => haxis b' (List.mem_cons_of_mem b hb')) hbs hstep.1
      simp only [runLoop, List.foldl_cons]
      refine ⟨hrec.1, ?_⟩
      intro d hd _hst
      exact hrec.2 d (fun b' hb' => hd b' (List.mem_cons_of_mem b hb'))
        (hstep.2 d (hd b (List.mem_cons_self b bs)))

/-- The initial state of the loop (lines 47-51). -/
lemma stInv_init (axis : List ℕ) (startBal : ℚ) :
    stInv axis { balance := startBal, pos := none, trades := [] } := by
  refine ⟨?_, ?_, ?_⟩
  · intro t ht
    simp at ht
  · exact List.Pairwise.nil
  · rintro p hp
    simp at hp

lemma stateDatesLt_init (startBal : ℚ) (d : ℕ) :
    stateDatesLt { balance := startBal, pos := none, trades := [] } d := by
  constructor
  · intro t ht
    simp at ht
  · rintro p hp
    simp at hp

/-- Master chronology lemma: after the whole simulation (loop plus forced
exit) over bars with strictly increasing dates, the final state satisfies
the chronology invariant over the bar date axis. -/
lemma stInv_backtestState (pct startBal : ℚ) (bars : List Bar)
    (hsort : (bars.map Bar.date).Pairwise (· < ·)) :
    stInv (bars.map Bar.date) (backtestState pct startBal bars) := by
  rcases List.eq_nil_or_concat bars with hnil | ⟨l, a, hcat⟩
  · subst hnil
    simp only [backtestState, List.dropLast_nil, List.getLast?_nil]
    exact stInv_init _ _
  · rw [List.concat_eq_append] at hcat
    subst hcat
    have hdrop : (l ++ [a]).dropLast = l := List.dropLast_concat
    have hlast : (l ++ [a]).getLast? = some a := List.getLast?_concat _
    have hmap : (l ++ [a]).map Bar.date = l.map Bar.date ++ [a.date] := by
      simp
    rw [hmap, List.pairwise_append] at hsort
    have hlsort := hsort.1
    have hlbefore : ∀ x ∈ l.map Bar.date, x < a.date := by
      intro x hx
      exact hsort.2.2 x hx a.date (List.mem_singleton_self _)
    have haxis : ∀ b ∈ l, b.date ∈ (l ++ [a]).map Bar.date := by
      intro b hb
      rw [hmap]
      exact List.mem_append_left _ (List.mem_map_of_mem Bar.date hb)
    have hamem : a.date ∈ (l ++ [a]).map Bar.date := by
      rw [hmap]
      exact List.mem_append_right _ (List.mem_singleton_self _)
    have hloop := stInv_runLoop pct ((l ++ [a]).map Bar.date) l
      { balance := startBal, pos := none, trades := [] } hlsort haxis
      (fun b _ => stateDatesLt_init _ _) (stInv_init _ _)
    have hltLast : stateDatesLt
        (runLoop pct { balance := startBal, pos := none, trades := [] } l) a.date :=
      hloop.2 a.date
        (fun b hb => hlbefore b.date (List.mem_map_of_mem Bar.date hb))
        (stateDatesLt_init _ _)
    simp only [backtestState, hdrop, hlast]
    exact stInv_forcedExit _ _ a hloop.1 hltLast hamem

/-- C5: for bars with strictly increasing dates, the emitted trade log has
no two overlapping trades (each trade exits strictly before the next one
enters, so at most one position is ever open), is chronologically ordered
by exit date, and every entry and exit date lies on the input bar date
axis. -/
theorem C5_trade_log_chronology (pct startBal : ℚ) (bars : List Bar)
    (hsort : (bars.map Bar.date).Pairwise (· < ·)) :
    (runBacktest pct startBal bars).trades.Pairwise
        (fun a b => a.exit_date < b.entry_date) ∧
    (runBacktest pct startBal bars).trades.Pairwise
        (fun a b => a.exit_date < b.exit_date) ∧
    ∀ t ∈ (runBacktest pct startBal bars).trades,
      t.entry_date ∈ bars.map Bar.date ∧ t.exit_date ∈ bars.map Bar.date := by
  have h := stInv_backtestState pct startBal bars hsort
  obtain ⟨htr, hpw, _⟩ := h
  refine ⟨hpw, ?_, fun t ht => ⟨(htr t ht).1, (htr t ht).2.1⟩⟩
  refine hpw.imp_of_mem ?_
  intro a b ha hb hab
  exact lt_trans hab (htr b hb).2.2

/-- Witness for C5: the three-bar run with one signal-driven trade
(entered day 1, exited day 2). -/
theorem C5_trade_log_chronology_witness :
    (runBacktest 10 1000
        [⟨1, 10, 11, 9, 9⟩, ⟨2, 10, 11, 9, 10⟩, ⟨3, 10, 12, 9, 11⟩]).trades.Pairwise
        (fun a b => a.exit_date < b.entry_date) ∧
    (runBacktest 10 1000
        [⟨1, 10, 11, 9, 9⟩, ⟨2, 10, 11, 9, 10⟩, ⟨3, 10, 12, 9, 11⟩]).trades.Pairwise
        (fun a b => a.exit_date < b.exit_date) ∧
    ∀ t ∈ (runBacktest 10 1000
        [⟨1, 10, 11, 9, 9⟩, ⟨2, 10, 11, 9, 10⟩, ⟨3, 10, 12, 9, 11⟩]).trades,
      t.entry_date ∈ [⟨1, 10, 11, 9, 9⟩, ⟨2, 10, 11, 9, 10⟩,
          (⟨3, 10, 12, 9, 11⟩ : Bar)].map Bar.date ∧
      t.exit_date ∈ [⟨1, 10, 11, 9, 9⟩, ⟨2, 10, 11, 9, 10⟩,
          (⟨3, 10, 12, 9, 11⟩ : Bar)].map Bar.date :=
  C5_trade_log_chronology 10 1000
    [⟨1, 10, 11, 9, 9⟩, ⟨2, 10, 11, 9, 10⟩, ⟨3, 10, 12, 9, 11⟩]
    (by simp)

/-- C6: every trade emitted during the regular per-bar pass (the loop over
all bars but the last, before any forced liquidation) enters strictly
before it exits. -/
theorem C6_loop_trades_entry_lt_exit (pct startBal : ℚ) (bars : List Bar)
    (hsort : (bars.map Bar.date).Pairwise (· < ·)) :
    ∀ t ∈ (runLoop pct { balance := startBal, pos := none, trades := [] }
        bars.dropLast).trades,
      t.entry_date < t.exit_date := by
  have hsub : ((bars.dropLast).map Bar.date).Sublist (bars.map Bar.date) :=
    (List.dropLast_sublist bars).map Bar.date
  have hsort' : ((bars.dropLast).map Bar.date).Pairwise (· < ·) :=
    hsort.sublist hsub
  have hloop := stInv_runLoop pct ((bars.dropLast).map Bar.date) bars.dropLast
    { balance := startBal, pos := none, trades := [] } hsort'
    (fun b hb => List.mem_map_of_mem Bar.date hb)
    (fun b _ => stateDatesLt_init _ _) (stInv_init _ _)
  exact fun t ht => (hloop.1.1 t ht).2.2

/-- Witness for C6 on the three-bar run with one signal-driven trade:
entered day 1 at 9, exited day 2 at 10. -/
theorem C6_loop_trades_entry_lt_exit_witness :
    ({ entry_date := 1, exit_date := 2, entry_price := 9, exit_price := 10,
       return_factor := 10/9, balance_after_trade := 10000/9 } : Trade).entry_date
      < ({ entry_date := 1, exit_date := 2, entry_price := 9, exit_price := 10,
           return_factor := 10/9, balance_after_trade := 10000/9 } : Trade).exit_date :=
  C6_loop_trades_entry_lt_exit 10 1000
    [⟨1, 10, 11, 9, 9⟩, ⟨2, 10, 11, 9, 10⟩, ⟨3, 10, 12, 9, 11⟩]
    (by simp) _
    (by norm_num [runLoop, stepBar, signal, List.foldl, List.dropLast])

/-- C9: every emitted trade, the forced final liquidation included, enters
strictly before it exits — entries happen while processing bars `0` to
`n-2` and the forced exit prices at bar `n-1`, so a same-day trade cannot
occur (given strictly increasing bar dates). -/
theorem C9_all_trades_entry_lt_exit (pct startBal : ℚ) (bars : List Bar)
    (hsort : (bars.map Bar.date).Pairwise (· < ·)) :
    ∀ t ∈ (runBacktest pct startBal bars).trades,
      t.entry_date < t.exit_date := by
  have h := stInv_backtestState pct startBal bars hsort
  exact fun t ht => (h.1 t ht).2.2

/-- Witness for C9: a strictly-declining all-signal run where the only
trade is the forced liquidation (entered day 1 at 9, forced out day 3 at 7). -/
theorem C9_all_trades_entry_lt_exit_witness :
    ({ entry_date := 1, exit_date := 3, entry_price := 9, exit_price := 7,
       return_factor := 7/9, balance_after_trade := 7000/9 } : Trade).entry_date
      < ({ entry_date := 1, exit_date := 3, entry_price := 9, exit_price := 7,
           return_factor := 7/9, balance_after_trade := 7000/9 } : Trade).exit_date :=
  C9_all_trades_entry_lt_exit 10 1000
    [⟨1, 10, 11, 9, 9⟩, ⟨2, 10, 11, 8, 8⟩, ⟨3, 10, 12, 7, 7⟩]
    (by simp) _
    (by norm_num [runBacktest, backtestState, runLoop, stepBar, signal,
      forcedExit, List.foldl, List.dropLast, List.getLast?])

/-! ### C4: the equity-curve projection -/

/-- Modelled from the claim's wording (not from the code): the balance
shown at date `d` is the `balance_after_trade` of the latest trade whose
exit date is at or before `d`, or the starting balance if there is none.
The code's pointer loop is proved below to refine this. -/
def specBalanceAt (startBal : ℚ) (trades : List Trade) (d : ℕ) : ℚ :=
  ((trades.filter (fun t => decide (t.exit_date ≤ d))).getLast?).elim startBal
    Trade.balance_after_trade

lemma specBalanceAt_nil (bal : ℚ) (d : ℕ) : specBalanceAt bal [] d = bal := rfl

lemma specBalanceAt_cons_le (bal : ℚ) (t : Trade) (rest : List Trade) (d : ℕ)
    (h : t.exit_date ≤ d) :
    specBalanceAt bal (t :: rest) d = specBalanceAt t.balance_after_trade rest d := by
  have hd : (fun t : Trade => decide (t.exit_date ≤ d)) t = true := by
    simp [h]
  simp only [specBalanceAt, List.filter_cons, hd, if_true]
  rcases hl : rest.filter (fun t => decide (t.exit_date ≤ d)) with _ | ⟨r, rl⟩
  · rw [hl, List.getLast?_singleton]
    rfl
  · rw [hl, List.getLast?_cons_cons]
    rcases hgl : (r :: rl).getLast? with _ | x
    · exact absurd hgl (by simp)
    · rfl

lemma specBalanceAt_all_gt (bal : ℚ) (trades : List Trade) (d : ℕ)
    (h : ∀ t ∈ trades, d < t.exit_date) : specBalanceAt bal trades d = bal := by
  have hnil : trades.filter (fun t => decide (t.exit_date ≤ d)) = [] := by
    rw [List.filter_eq_nil_iff]
    intro t ht
    simpa using Nat.not_le.mpr (h t ht)
  simp [specBalanceAt, hnil]

/-- The pointer loop of lines 132-137 computes, at every date, the balance
after the latest trade exited at or before that date — provided the dates
are strictly increasing and the trades' exit dates are (in order) a
sub-sequence of the date axis, which is how the backtest produces them. -/
lemma equityLoop_eq_spec (dates : List ℕ) (trades : List Trade) (bal : ℚ)
    (hsort : dates.Pairwise (· < ·))
    (hsub : (trades.map Trade.exit_date).Sublist dates) :
    equityLoop dates trades bal
      = dates.map (fun d => (d, specBalanceAt bal trades d)) := by
  induction dates generalizing trades bal with
  | nil => rfl
  | cons d ds ih =>
      rw [List.pairwise_cons] at hsort
      obtain ⟨hd_lt, hds⟩ := hsort
      rcases trades with _ | ⟨t, rest⟩
      · simp only [equityLoop, List.map_cons]
        rw [ih [] bal hds (List.nil_sublist ds)]
        simp [specBalanceAt_nil]
      · by_cases he : t.exit_date = d
        · have hsub' : (rest.map Trade.exit_date).Sublist ds := by
            rw [List.map_cons, he] at hsub
            exact List.cons_sublist_cons.mp hsub
          have hrest_gt : ∀ r ∈ rest, d < r.exit_date := by
            intro r hr
            exact hd_lt _ (hsub'.subset (List.mem_map_of_mem Trade.exit_date hr))
          simp only [equityLoop]
          rw [if_pos he, ih rest t.balance_after_trade hds hsub', List.map_cons]
          congr 1
          · rw [specBalanceAt_cons_le bal t rest d (le_of_eq he),
                specBalanceAt_all_gt _ rest d hrest_gt]
          · apply List.map_congr_left
            intro d' hd'
            rw [specBalanceAt_cons_le bal t rest d'
                (le_of_lt (he ▸ hd_lt d' hd'))]
        · have hsub' : ((t :: rest).map Trade.exit_date).Sublist ds := by
            rcases List.sublist_cons_iff.mp hsub with h' | ⟨r, hr, _⟩
            · exact h'
            · exact absurd (by simpa using congrArg List.head? hr) he
          have hall_gt : ∀ r ∈ t :: rest, d < r.exit_date := by
            intro r hr
            exact hd_lt _ (hsub'.subset (List.mem_map_of_mem Trade.exit_date hr))
          simp only [equityLoop]
          rw [if_neg he, ih (t :: rest) bal hds hsub', List.map_cons]
          congr 1
          rw [specBalanceAt_all_gt bal (t :: rest) d hall_gt]

/-- C4: under the conditions in which the backtest invokes it (strictly
increasing dates, trade exit dates an ordered sub-sequence of the date
axis), the equity projection yields exactly one point per bar date; with
an empty trade list it is constantly the starting balance; and at each
date its balance is the `balance_after_trade` of the latest trade exited
at or before that date (the starting balance if none). -/
theorem C4_equity_projection (dates : List ℕ) (trades : List Trade) (startBal : ℚ)
    (hsort : dates.Pairwise (· < ·))
    (hsub : (trades.map Trade.exit_date).Sublist dates) :
    (equityLoop dates trades startBal).map Prod.fst = dates ∧
    (trades = [] →
      equityLoop dates trades startBal = dates.map (fun d => (d, startBal))) ∧
    equityLoop dates trades startBal
      = dates.map (fun d => (d, specBalanceAt startBal trades d)) := by
  have hmain := equityLoop_eq_spec dates trades startBal hsort hsub
  refine ⟨?_, ?_, hmain⟩
  · rw [hmain, List.map_map]
    simp [Function.comp_def]
  · intro h
    subst h
    rw [hmain]
    simp [specBalanceAt_nil]

/-- Witness for C4: dates 1, 2, 3 and a single trade exiting at date 2. -/
theorem C4_equity_projection_witness :
    (equityLoop [1, 2, 3] [⟨1, 2, 9, 10, 10/9, 10000/9⟩] 1000).map Prod.fst
        = [1, 2, 3] ∧
    (([⟨1, 2, 9, 10, 10/9, 10000/9⟩] : List Trade) = [] →
      equityLoop [1, 2, 3] [⟨1, 2, 9, 10, 10/9, 10000/9⟩] 1000
        = [1, 2, 3].map (fun d => (d, 1000))) ∧
    equityLoop [1, 2, 3] [⟨1, 2, 9, 10, 10/9, 10000/9⟩] 1000
      = [1, 2, 3].map
          (fun d => (d, specBalanceAt 1000 [⟨1, 2, 9, 10, 10/9, 10000/9⟩] d)) :=
  C4_equity_projection [1, 2, 3] [⟨1, 2, 9, 10, 10/9, 10000/9⟩] 1000
    (by simp) (by simp)

/-! ### C10: the last bar matters only through its close and date -/

/-- C10: the report does not depend on the last bar's open, high or low
(hence not on its signal): the loop stops before the last bar and the
forced exit reads only its close and date, so two bar sequences that agree
everywhere except in the last bar's open, high and low produce identical
reports (trade list, final balance and equity curve alike). -/
theorem C10_last_bar_ohl_independent (pct startBal : ℚ) (pre : List Bar)
    (b b' : Bar) (hdate : b.date = b'.date) (hclose : b.close = b'.close) :
    runBacktest pct startBal (pre ++ [b]) = runBacktest pct startBal (pre ++ [b']) := by
  have hfe : ∀ st : BTState, forcedExit st b = forcedExit st b' := by
    intro st
    obtain ⟨bal, pos, trades⟩ := st
    rcases pos with _ | ⟨p, dte⟩
    · rfl
    · simp only [forcedExit, hdate, hclose]
  have hstate : backtestState pct startBal (pre ++ [b])
      = backtestState pct startBal (pre ++ [b']) := by
    simp only [backtestState, List.dropLast_concat, List.getLast?_concat]
    exact hfe _
  have hmap : (pre ++ [b]).map Bar.date = (pre ++ [b']).map Bar.date := by
    simp [hdate]
  simp only [runBacktest]
  rw [hstate, hmap]

/-- Witness for C10: the last bars `(2, 10, 12, 8, 10)` and `(2, 5, 6, 4, 10)`
share date and close but no other field. -/
theorem C10_last_bar_ohl_independent_witness :
    runBacktest 10 1000 ([⟨1, 10, 11, 9, 9⟩] ++ [⟨2, 10, 12, 8, 10⟩])
      = runBacktest 10 1000 ([⟨1, 10, 11, 9, 9⟩] ++ [⟨2, 5, 6, 4, 10⟩]) :=
  C10_last_bar_ohl_independent 10 1000 [⟨1, 10, 11, 9, 9⟩]
    ⟨2, 10, 12, 8, 10⟩ ⟨2, 5, 6, 4, 10⟩ rfl rfl

end CloseNearLow
